import Mathlib

/-!
Verification of the `/proc/mounts` line parser (nom-based Rust crate).

The Rust source composes nom 5 combinators.  We embed the combinators as
total functions on `List Char` (a parser maps the input to `none` on
failure, or to `some (remaining, value)` on success), translating the
nom implementations (`is_not`, `tag`, `char`, `value`, `recognize`,
`alt`, `escaped_transform`, `map_parser`, `separated_list`, `space0`,
`space1`, `all_consuming`) and then the crate's own parsers
(`not_whitespace`, `escaped_space`, `escaped_backslash`,
`transform_escaped`, `mount_opts`, `parse_line`, `parse_line_alternate`)
exactly as they appear in `src/lib.rs`.
-/

set_option maxRecDepth 8000

namespace NomTutorial

/-- Input of a parser: the characters of a Rust `&str`. -/
abbrev Input := List Char

/-- A nom parser over `&str`: failure is collapsed to `none`, success
returns the remaining input and the produced value. -/
abbrev P (α : Type) := Input → Option (Input × α)

/-- The `Mount` struct of the crate (strings as character lists). -/
structure Mount where
  device : List Char
  mount_point : List Char
  file_system_type : List Char
  options : List (List Char)
deriving DecidableEq

/-- Characters accepted by nom's `space0`/`space1`: space and tab. -/
def wsChar (c : Char) : Bool := (c == ' ') || (c == '\t')

/-- nom's `bytes::complete::is_not(cs)`: longest nonempty prefix of
characters not in `cs`; fails if that prefix is empty. -/
def isNot (cs : List Char) : P (List Char) := fun i =>
  let t := i.takeWhile (fun c => !(cs.contains c))
  if t = [] then none else some (i.dropWhile (fun c => !(cs.contains c)), t)

/-- nom's `bytes::complete::tag(t)`: matches the literal `t`. -/
def tagP (t : List Char) : P (List Char) := fun i =>
  if t.isPrefixOf i then some (i.drop t.length, t) else none

/-- nom's `character::complete::char(c)`: matches exactly one `c`. -/
def charP (c : Char) : P Char := fun i =>
  match i with
  | [] => none
  | x :: rest => if x = c then some (rest, c) else none

/-- nom's `combinator::value(v, p)`: run `p`, replace its output by `v`. -/
def valueP {α β : Type} (v : β) (p : P α) : P β := fun i =>
  (p i).map (fun s => (s.1, v))

/-- nom's `combinator::recognize(p)`: run `p`, return the consumed slice. -/
def recognizeP {α : Type} (p : P α) : P (List Char) := fun i =>
  (p i).map (fun s => (s.1, i.take (i.length - s.1.length)))

/-- nom's `branch::alt((p, q))` for two alternatives. -/
def alt2 {α : Type} (p q : P α) : P α := fun i =>
  match p i with
  | some r => some r
  | none => q i

/-- `not_whitespace` from `src/lib.rs`: `is_not(" \t")`. -/
def not_whitespace : P (List Char) := isNot [' ', '\t']

/-- `escaped_space` from `src/lib.rs`: `value(" ", tag("040"))`. -/
def escaped_space : P (List Char) := valueP [' '] (tagP ['0', '4', '0'])

/-- `escaped_backslash` from `src/lib.rs`: `recognize(char('\\'))`. -/
def escaped_backslash : P (List Char) := recognizeP (charP '\\')

/-- Loop of nom 5's `bytes::complete::escaped_transform`, with explicit
fuel for termination.  Each iteration either copies the output of
`normal`, or (after the control character) the output of `tr`; a
control character at the end of input, or one whose continuation `tr`
rejects, is a failure; a position where `normal` fails and the head is
not the control character ends the loop successfully. -/
def escapedTransformFuel (normal tr : P (List Char)) (ctrl : Char) :
    Nat → Input → List Char → Option (Input × List Char)
  | 0, _, _ => none
  | fuel+1, rem, acc =>
    match rem with
    | [] => some ([], acc)
    | c :: rest =>
      match normal (c :: rest) with
      | some s => escapedTransformFuel normal tr ctrl fuel s.1 (acc ++ s.2)
      | none =>
        if c = ctrl then
          match rest with
          | [] => none
          | _ :: _ =>
            match tr rest with
            | some s => escapedTransformFuel normal tr ctrl fuel s.1 (acc ++ s.2)
            | none => none
        else some (c :: rest, acc)

/-- nom 5's `bytes::complete::escaped_transform(normal, ctrl, tr)`. -/
def escaped_transform (normal : P (List Char)) (ctrl : Char) (tr : P (List Char)) :
    P (List Char) := fun i =>
  escapedTransformFuel normal tr ctrl (i.length + 1) i []

/-- `transform_escaped` from `src/lib.rs`:
`escaped_transform(is_not("\\"), '\\', alt((escaped_backslash, escaped_space)))`. -/
def transform_escaped : P (List Char) :=
  escaped_transform (isNot ['\\']) '\\' (alt2 escaped_backslash escaped_space)

/-- nom's `combinator::map_parser(first, second)`: run `first`, feed its
output to `second`, keep `second`'s output and `first`'s remaining input
(any input left over by `second` is discarded). -/
def mapSub {α : Type} (first : P (List Char)) (second : P α) : P α := fun i =>
  (first i).bind fun a => (second a.2).bind fun b => some (a.1, b.2)

/-- Loop of nom 5's `multi::separated_list` after the first element:
repeatedly parse a separator then an element, stopping (successfully,
backtracking over a dangling separator) as soon as either fails, and
erroring if an iteration consumes no input. -/
def sepListLoop {α β : Type} (sep : P α) (f : P β) :
    Nat → Input → List β → Option (Input × List β)
  | 0, _, _ => none
  | fuel+1, i, res =>
    match sep i with
    | none => some (i, res)
    | some s =>
      if s.1 = i then none
      else
        match f s.1 with
        | none => some (i, res)
        | some s2 =>
          if s2.1 = i then none
          else sepListLoop sep f fuel s2.1 (res ++ [s2.2])

/-- nom 5's `multi::separated_list(sep, f)`: zero or more `f` separated
by `sep`; if the first `f` fails nothing is consumed and `[]` is
returned; a first element consuming nothing is an error. -/
def separated_list {α β : Type} (sep : P α) (f : P β) : P (List β) := fun i =>
  match f i with
  | none => some (i, [])
  | some s =>
    if s.1 = i then none
    else sepListLoop sep f (i.length + 1) s.1 [s.2]

/-- `mount_opts` from `src/lib.rs`:
`separated_list(char(','), map_parser(is_not(", \t"), transform_escaped))`. -/
def mount_opts : P (List (List Char)) :=
  separated_list (charP ',') (mapSub (isNot [',', ' ', '\t']) transform_escaped)

/-- nom's `character::complete::space1`: one or more spaces/tabs. -/
def space1 : P (List Char) := fun i =>
  let t := i.takeWhile wsChar
  if t = [] then none else some (i.dropWhile wsChar, t)

/-- nom's `character::complete::space0`: zero or more spaces/tabs. -/
def space0 : P (List Char) := fun i =>
  some (i.dropWhile wsChar, i.takeWhile wsChar)

/-- nom's `combinator::all_consuming(p)`: run `p` and fail unless it
consumed the entire input. -/
def all_consuming {α : Type} (p : P α) : P α := fun i =>
  (p i).bind fun s => if s.1 = [] then some s else none

/-- `parse_line` from `src/lib.rs`: the whole six-field grammar wrapped
in `all_consuming`, assembling a `Mount` from the tuple elements. -/
def parse_line : P Mount := fun i =>
  all_consuming (fun i0 =>
    (mapSub not_whitespace transform_escaped i0).bind fun s1 =>
    (space1 s1.1).bind fun s2 =>
    (mapSub not_whitespace transform_escaped s2.1).bind fun s3 =>
    (space1 s3.1).bind fun s4 =>
    (not_whitespace s4.1).bind fun s5 =>
    (space1 s5.1).bind fun s6 =>
    (mount_opts s6.1).bind fun s7 =>
    (space1 s7.1).bind fun s8 =>
    (charP '0' s8.1).bind fun s9 =>
    (space1 s9.1).bind fun s10 =>
    (charP '0' s10.1).bind fun s11 =>
    (space0 s11.1).bind fun s12 =>
    some (s12.1, Mount.mk s1.2 s3.2 s5.2 s7.2)) i

/-- `parse_line_alternate` from `src/lib.rs`: same fields parsed by
sequential statements, with `all_consuming` wrapped only around the
trailing `space1, char('0'), space1, char('0'), space0` tuple. -/
def parse_line_alternate : P Mount := fun i =>
  (mapSub not_whitespace transform_escaped i).bind fun s1 =>
  (space1 s1.1).bind fun s2 =>
  (mapSub not_whitespace transform_escaped s2.1).bind fun s3 =>
  (space1 s3.1).bind fun s4 =>
  (not_whitespace s4.1).bind fun s5 =>
  (space1 s5.1).bind fun s6 =>
  (mount_opts s6.1).bind fun s7 =>
  (all_consuming (fun j =>
    (space1 j).bind fun t1 =>
    (charP '0' t1.1).bind fun t2 =>
    (space1 t2.1).bind fun t3 =>
    (charP '0' t3.1).bind fun t4 =>
    (space0 t4.1).bind fun t5 =>
    some (t5.1, t5.2)) s7.1).bind fun s8 =>
  some (s8.1, Mount.mk s1.2 s3.2 s5.2 s7.2)

/-- Escape decoding as the specification words it: runs of non-backslash
characters are copied verbatim; a backslash immediately followed by `\`
yields a single backslash; a backslash immediately followed by `040`
yields a single space; a backslash followed by anything else (including
a trailing lone backslash) is a failure. -/
def spec_escape_decode : List Char → Option (List Char)
  | [] => some []
  | c :: rest =>
    if c = '\\' then
      if ['\\'].isPrefixOf rest then
        (spec_escape_decode (rest.drop 1)).map (fun s => '\\' :: s)
      else if ['0', '4', '0'].isPrefixOf rest then
        (spec_escape_decode (rest.drop 3)).map (fun s => ' ' :: s)
      else none
    else (spec_escape_decode rest).map (fun s => c :: s)
termination_by l => l.length
decreasing_by
  · simp [List.length_drop]; omega
  · simp [List.length_drop]; omega
  · simp

/-- Negation of the control-character test used by `transform_escaped`. -/
def notBS (c : Char) : Bool := !(c == '\\')

/-- Prefix of `parse_line`'s pipeline through the options field: device,
whitespace, mount point, whitespace, filesystem type, whitespace,
options, returning the remaining input at that point. -/
def parse_through_options (i : Input) : Option Input :=
  (mapSub not_whitespace transform_escaped i).bind fun s1 =>
  (space1 s1.1).bind fun s2 =>
  (mapSub not_whitespace transform_escaped s2.1).bind fun s3 =>
  (space1 s3.1).bind fun s4 =>
  (not_whitespace s4.1).bind fun s5 =>
  (space1 s5.1).bind fun s6 =>
  (mount_opts s6.1).bind fun s7 =>
  some s7.1

/-- Rendering of `impl Display for Mount` from `src/lib.rs`:
`write!("{} on {} type {} ({})", device, mount_point, file_system_type,
options.join(","))`. -/
def mountDisplay (m : Mount) : List Char :=
  m.device ++ [' ', 'o', 'n', ' '] ++ m.mount_point ++
    [' ', 't', 'y', 'p', 'e', ' '] ++ m.file_system_type ++ [' ', '('] ++
    List.intercalate [','] m.options ++ [')']

/-- Split a string at the first occurrence of the separator `pat`,
returning the parts before and after it (fails if `pat` never occurs). -/
def splitAtSub (pat : List Char) : List Char → Option (List Char × List Char)
  | [] => if pat = [] then some ([], []) else none
  | c :: rest =>
    if pat.isPrefixOf (c :: rest) then some ([], (c :: rest).drop pat.length)
    else
      match splitAtSub pat rest with
      | some pr => some (c :: pr.1, pr.2)
      | none => none

/-- Everything before the last space-separated word of `head`
(`head.reverse.dropWhile` skips that word, `drop 1` the space): used by
the re-derivation to strip the filesystem type. -/
def restOf (head : List Char) : List Char :=
  ((head.reverse.dropWhile (fun c => !(c == ' '))).drop 1).reverse

/-- Split a string on every occurrence of the character `sep`. -/
def splitOnChar (sep : Char) : List Char → List (List Char)
  | [] => [[]]
  | c :: rest =>
    match splitOnChar sep rest with
    | [] => [[c]]
    | x :: xs => if c = sep then [] :: x :: xs else (c :: x) :: xs

/-- Re-derivation of the four field values from a Display rendering,
following the spec's format
`<device> on <mount_point> type <fs_type> (<opt1>,<opt2>,...)`: the
options are the comma-split of the parenthesized tail, the filesystem
type is the last space-separated word before the `(`, the literal
`" type "` and the first `" on "` separate the remaining two fields. -/
def specRederive (s : List Char) : Option Mount :=
  if s.getLast? = some ')' then
    (splitAtSub ['('] s.dropLast).bind fun pr =>
      if pr.1.getLast? = some ' ' then
        (if [' ', 't', 'y', 'p', 'e'] <:+ restOf pr.1.dropLast then
          (splitAtSub [' ', 'o', 'n', ' ']
              ((restOf pr.1.dropLast).take ((restOf pr.1.dropLast).length - 5))).bind
            fun dm =>
              some ⟨dm.1, dm.2,
                (pr.1.dropLast.reverse.takeWhile (fun c => !(c == ' '))).reverse,
                splitOnChar ',' pr.2⟩
        else none)
      else none
  else none

/-- Structural well-formedness of a mount record; every record produced
by `parse_line` satisfies this: nonempty fields, a whitespace-free
filesystem type, at least one option, options nonempty and comma-free. -/
def validMount (m : Mount) : Prop :=
  m.device ≠ [] ∧ m.mount_point ≠ [] ∧ m.file_system_type ≠ [] ∧
  (∀ c ∈ m.file_system_type, wsChar c = false) ∧
  m.options ≠ [] ∧ (∀ o ∈ m.options, o ≠ [] ∧ ',' ∉ o)

/-- Absence of the delimiter characters `(`, `)`, `,` from every field,
the hypothesis of the spec's round-trip property. -/
def noForbidden (m : Mount) : Prop :=
  (∀ c ∈ m.device, c ≠ '(' ∧ c ≠ ')' ∧ c ≠ ',') ∧
  (∀ c ∈ m.mount_point, c ≠ '(' ∧ c ≠ ')' ∧ c ≠ ',') ∧
  (∀ c ∈ m.file_system_type, c ≠ '(' ∧ c ≠ ')' ∧ c ≠ ',') ∧
  (∀ o ∈ m.options, ∀ c ∈ o, c ≠ '(' ∧ c ≠ ')' ∧ c ≠ ',')

instance decValidMount (m : Mount) : Decidable (validMount m) := by
  unfold validMount
  infer_instance

instance decNoForbidden (m : Mount) : Decidable (noForbidden m) := by
  unfold noForbidden
  infer_instance

/-- One item handed to the iterators by `BufReader::lines()`: a line
read successfully, or a read failure with error detail `ε`. -/
inductive LineRead (ε : Type) where
  | ok (l : List Char)
  | err (e : ε)

/-- The iterator item error of the crate: either the propagated read
error (`e.into()`) or the opaque `ParseError`. -/
inductive MountError (ε : Type) where
  | io (e : ε)
  | parse

/-- `MountsIntoIterator::next` from `src/lib.rs`, over the sequence of
remaining line reads. -/
def mountsIntoIteratorNext {ε : Type} (st : List (LineRead ε)) :
    Option (List (LineRead ε) × Except (MountError ε) Mount) :=
  match st with
  | [] => none
  | .ok l :: rest =>
    match parse_line l with
    | some pm => some (rest, Except.ok pm.2)
    | none => some (rest, Except.error MountError.parse)
  | .err e :: rest => some (rest, Except.error (MountError.io e))

/-- `MountsIteratorMut::next` from `src/lib.rs` (a verbatim duplicate of
the consuming iterator's body, acting through the borrowed reader). -/
def mountsIteratorMutNext {ε : Type} (st : List (LineRead ε)) :
    Option (List (LineRead ε) × Except (MountError ε) Mount) :=
  match st with
  | [] => none
  | .ok l :: rest =>
    match parse_line l with
    | some pm => some (rest, Except.ok pm.2)
    | none => some (rest, Except.error MountError.parse)
  | .err e :: rest => some (rest, Except.error (MountError.io e))

/-- Item sequence produced by driving `MountsIntoIterator` to the end. -/
def mountsIntoIterSeq {ε : Type} : List (LineRead ε) → List (Except (MountError ε) Mount)
  | [] => []
  | .ok l :: rest =>
    (match parse_line l with
     | some pm => Except.ok pm.2
     | none => Except.error MountError.parse) :: mountsIntoIterSeq rest
  | .err e :: rest => Except.error (MountError.io e) :: mountsIntoIterSeq rest

/-- Item sequence produced by driving `MountsIteratorMut` to the end. -/
def mountsIterMutSeq {ε : Type} : List (LineRead ε) → List (Except (MountError ε) Mount)
  | [] => []
  | .ok l :: rest =>
    (match parse_line l with
     | some pm => Except.ok pm.2
     | none => Except.error MountError.parse) :: mountsIterMutSeq rest
  | .err e :: rest => Except.error (MountError.io e) :: mountsIterMutSeq rest

/-- Relation between a source line read and the iterator item emitted
for it: parsed records pass through as `Ok`, grammar failures become the
parse error, read failures become the propagated read error. -/
def stepRel {ε : Type} : LineRead ε → Except (MountError ε) Mount → Prop
  | .ok l, out =>
      (∀ r pm, parse_line l = some (r, pm) → out = Except.ok pm) ∧
      (parse_line l = none → out = Except.error MountError.parse)
  | .err e, out => out = Except.error (MountError.io e)

/-- Concrete well-formed line used to instantiate theorems: `dev mp fs rw,ro 0 0`. -/
def lineA : Input :=
  ['d', 'e', 'v', ' ', 'm', 'p', ' ', 'f', 's', ' ', 'r', 'w', ',', 'r', 'o', ' ', '0', ' ', '0']

/-- The record parsed from `lineA`. -/
def mountA : Mount := ⟨['d', 'e', 'v'], ['m', 'p'], ['f', 's'], [['r', 'w'], ['r', 'o']]⟩

/-- Concrete line `a\040on\040b c d x 0 0`: its device decodes to `a on b`. -/
def lineB1 : Input :=
  ['a', '\\', '0', '4', '0', 'o', 'n', '\\', '0', '4', '0', 'b',
   ' ', 'c', ' ', 'd', ' ', 'x', ' ', '0', ' ', '0']

/-- The record parsed from `lineB1`. -/
def mountB1 : Mount := ⟨['a', ' ', 'o', 'n', ' ', 'b'], ['c'], ['d'], [['x']]⟩

/-- Concrete line `a b\040on\040c d x 0 0`: its mount point decodes to `b on c`. -/
def lineB2 : Input :=
  ['a', ' ', 'b', '\\', '0', '4', '0', 'o', 'n', '\\', '0', '4', '0', 'c',
   ' ', 'd', ' ', 'x', ' ', '0', ' ', '0']

/-- The record parsed from `lineB2`; it renders identically to `mountB1`. -/
def mountB2 : Mount := ⟨['a'], ['b', ' ', 'o', 'n', ' ', 'c'], ['d'], [['x']]⟩

theorem isNot_bs (i : Input) :
    isNot ['\\'] i =
      (if i.takeWhile notBS = [] then none
       else some (i.dropWhile notBS, i.takeWhile notBS)) := by
  have hp : (fun x => !(List.contains ['\\'] x)) = notBS := by
    funext x
    simp only [notBS]
    cases h : x == '\\' <;> simp [List.contains, List.elem, h]
  simp only [isNot, hp]

theorem eb_eval (r : List Char) : escaped_backslash ('\\' :: r) = some (r, ['\\']) := by
  simp [escaped_backslash, recognizeP, charP]

theorem dropWhile_len_le {p : Char → Bool} (l : List Char) :
    (l.dropWhile p).length ≤ l.length :=
  (List.dropWhile_sublist p).length_le

theorem etf_step_normal (f : Nat) (c : Char) (rest acc : List Char)
    (s : Input × List Char) (hn : isNot ['\\'] (c :: rest) = some s) :
    escapedTransformFuel (isNot ['\\']) (alt2 escaped_backslash escaped_space) '\\'
        (f + 1) (c :: rest) acc
      = escapedTransformFuel (isNot ['\\']) (alt2 escaped_backslash escaped_space) '\\'
          f s.1 (acc ++ s.2) := by
  simp [escapedTransformFuel, hn]

theorem etf_step_lone (f : Nat) (acc : List Char)
    (hn : isNot ['\\'] ['\\'] = none) :
    escapedTransformFuel (isNot ['\\']) (alt2 escaped_backslash escaped_space) '\\'
        (f + 1) ['\\'] acc = none := by
  simp [escapedTransformFuel, hn]

theorem etf_step_tr (f : Nat) (d : Char) (r acc : List Char)
    (s : Input × List Char)
    (hn : isNot ['\\'] ('\\' :: d :: r) = none)
    (ht : alt2 escaped_backslash escaped_space (d :: r) = some s) :
    escapedTransformFuel (isNot ['\\']) (alt2 escaped_backslash escaped_space) '\\'
        (f + 1) ('\\' :: d :: r) acc
      = escapedTransformFuel (isNot ['\\']) (alt2 escaped_backslash escaped_space) '\\'
          f s.1 (acc ++ s.2) := by
  simp [escapedTransformFuel, hn, ht]

theorem etf_step_tr_none (f : Nat) (d : Char) (r acc : List Char)
    (hn : isNot ['\\'] ('\\' :: d :: r) = none)
    (ht : alt2 escaped_backslash escaped_space (d :: r) = none) :
    escapedTransformFuel (isNot ['\\']) (alt2 escaped_backslash escaped_space) '\\'
        (f + 1) ('\\' :: d :: r) acc = none := by
  simp [escapedTransformFuel, hn, ht]

theorem isNot_bs_ctrl (rest : List Char) : isNot ['\\'] ('\\' :: rest) = none := by
  rw [isNot_bs]
  rw [List.takeWhile_cons_of_neg (by simp [notBS])]
  simp

theorem spec_bs_bs (r : List Char) :
    spec_escape_decode ('\\' :: '\\' :: r)
      = (spec_escape_decode r).map (fun s => '\\' :: s) := by
  rw [spec_escape_decode]
  simp [List.isPrefixOf_cons₂]

theorem spec_bs_other (d : Char) (r : List Char) (hd : d ≠ '\\') :
    spec_escape_decode ('\\' :: d :: r)
      = (if ['0', '4', '0'].isPrefixOf (d :: r) then
          (spec_escape_decode ((d :: r).drop 3)).map (fun s => ' ' :: s)
         else none) := by
  rw [spec_escape_decode]
  rw [if_pos rfl]
  rw [if_neg (by simp [List.isPrefixOf_cons₂]; intro he; exact hd he.symm)]

theorem spec_nonctrl (c : Char) (rest : List Char) (hc : c ≠ '\\') :
    spec_escape_decode (c :: rest)
      = (spec_escape_decode rest).map (fun s => c :: s) := by
  rw [spec_escape_decode]
  rw [if_neg hc]

theorem spec_chunk (l : List Char) :
    spec_escape_decode l =
      (spec_escape_decode (l.dropWhile notBS)).map
        (fun s => l.takeWhile notBS ++ s) := by
  induction l with
  | nil => simp [spec_escape_decode]
  | cons c rest ih =>
    by_cases hc : c = '\\'
    · have hneg : ¬ notBS c := by simp [notBS, hc]
      rw [List.takeWhile_cons_of_neg hneg, List.dropWhile_cons_of_neg hneg]
      cases h : spec_escape_decode (c :: rest) <;> simp [h]
    · have hpos : notBS c := by simp [notBS, hc]
      rw [List.takeWhile_cons_of_pos hpos, List.dropWhile_cons_of_pos hpos]
      rw [spec_nonctrl c rest hc, ih]
      cases h : spec_escape_decode (rest.dropWhile notBS) <;> simp [h]

theorem etf_eq_spec :
    ∀ (fuel : Nat) (rem acc : List Char), rem.length < fuel →
      escapedTransformFuel (isNot ['\\']) (alt2 escaped_backslash escaped_space) '\\'
          fuel rem acc
        = (spec_escape_decode rem).map (fun s => (([] : Input), acc ++ s)) := by
  intro fuel
  induction fuel with
  | zero => intro rem acc h; exact absurd h (Nat.not_lt_zero _)
  | succ f ih =>
    intro rem acc h
    cases rem with
    | nil => simp [escapedTransformFuel, spec_escape_decode]
    | cons c rest =>
      by_cases hc : c = '\\'
      · subst hc
        cases rest with
        | nil =>
          rw [etf_step_lone f acc (isNot_bs_ctrl [])]
          rw [spec_escape_decode]
          simp
        | cons d r =>
          by_cases hd : d = '\\'
          · subst hd
            have halt : alt2 escaped_backslash escaped_space ('\\' :: r)
                = some (r, ['\\']) := by
              simp [alt2, eb_eval]
            rw [etf_step_tr f '\\' r acc (r, ['\\']) (isNot_bs_ctrl _) halt]
            rw [ih r (acc ++ ['\\']) (by simp at h ⊢; omega)]
            rw [spec_bs_bs]
            cases hX : spec_escape_decode r <;> simp [hX]
          · have heb : escaped_backslash (d :: r) = none := by
              simp [escaped_backslash, recognizeP, charP, hd]
            by_cases h3 : ['0', '4', '0'].isPrefixOf (d :: r)
            · have halt : alt2 escaped_backslash escaped_space (d :: r)
                  = some ((d :: r).drop 3, [' ']) := by
                simp [alt2, heb, escaped_space, valueP, tagP, h3]
              rw [etf_step_tr f d r acc _ (isNot_bs_ctrl _) halt]
              rw [ih ((d :: r).drop 3) (acc ++ [' '])
                    (by
                      have := List.length_drop 3 (d :: r)
                      simp at h ⊢
                      omega)]
              rw [spec_bs_other d r hd, if_pos h3]
              cases hX : spec_escape_decode ((d :: r).drop 3) <;> simp [hX]
            · have halt : alt2 escaped_backslash escaped_space (d :: r) = none := by
                simp [alt2, heb, escaped_space, valueP, tagP, h3]
              rw [etf_step_tr_none f d r acc (isNot_bs_ctrl _) halt]
              rw [spec_bs_other d r hd, if_neg h3]
              simp
      · have hpos : notBS c := by simp [notBS, hc]
        have hsome : isNot ['\\'] (c :: rest)
            = some (rest.dropWhile notBS, c :: rest.takeWhile notBS) := by
          rw [isNot_bs]
          rw [List.takeWhile_cons_of_pos hpos, List.dropWhile_cons_of_pos hpos]
          simp
        rw [etf_step_normal f c rest acc _ hsome]
        rw [ih (rest.dropWhile notBS) (acc ++ (c :: rest.takeWhile notBS))
              (by
                have hle := dropWhile_len_le (p := notBS) rest
                simp at h ⊢
                omega)]
        rw [spec_nonctrl c rest hc, spec_chunk rest]
        cases hX : spec_escape_decode (rest.dropWhile notBS) <;> simp [hX]
theorem transform_escaped_eq_spec (i : Input) :
    transform_escaped i
      = (spec_escape_decode i).map (fun s => (([] : Input), s)) := by
  have := etf_eq_spec (i.length + 1) i [] (Nat.lt_succ_self _)
  rw [transform_escaped, escaped_transform] at *
  rw [this]
  cases hX : spec_escape_decode i <;> simp [hX]

theorem contains_ws (c : Char) : (List.contains [' ', '\t'] c) = wsChar c := by
  cases h1 : c == ' ' <;> cases h2 : c == '\t' <;>
    simp [List.contains, List.elem, wsChar, h1, h2]

theorem dropWhile_head_not {p : Char → Bool} :
    ∀ (l : List Char) (c : Char) (r : List Char), l.dropWhile p = c :: r → p c = false := by
  intro l
  induction l with
  | nil => intro c r h; simp at h
  | cons a t ih =>
    intro c r h
    by_cases ha : p a
    · rw [List.dropWhile_cons_of_pos ha] at h
      exact ih c r h
    · rw [List.dropWhile_cons_of_neg ha] at h
      cases h
      exact Bool.eq_false_iff.mpr ha

theorem isNot_inv {cs : List Char} {i : Input} {s : Input × List Char}
    (h : isNot cs i = some s) :
    s.2 = i.takeWhile (fun c => !(cs.contains c)) ∧
    s.1 = i.dropWhile (fun c => !(cs.contains c)) ∧ s.2 ≠ [] := by
  simp only [isNot] at h
  split at h
  · exact absurd h (by simp)
  · cases h
    refine ⟨rfl, rfl, by assumption⟩

theorem not_whitespace_inv {i : Input} {s : Input × List Char}
    (h : not_whitespace i = some s) :
    i = s.2 ++ s.1 ∧ s.2 ≠ [] ∧ (∀ c ∈ s.2, wsChar c = false) ∧
    (∀ c r, s.1 = c :: r → wsChar c = true) := by
  have hp : (fun c => !(List.contains [' ', '\t'] c)) = (fun c => !(wsChar c)) := by
    funext c; rw [contains_ws]
  obtain ⟨h2, h1, hne⟩ := isNot_inv h
  rw [hp] at h2 h1
  refine ⟨?_, hne, ?_, ?_⟩
  · rw [h2, h1]; exact (List.takeWhile_append_dropWhile _ _).symm
  · intro c hc
    rw [h2] at hc
    have := List.mem_takeWhile_imp hc
    simpa using this
  · intro c r hcr
    rw [h1] at hcr
    have := dropWhile_head_not _ _ _ hcr
    simpa using this

theorem space1_inv {i : Input} {s : Input × List Char} (h : space1 i = some s) :
    i = s.2 ++ s.1 ∧ s.2 ≠ [] ∧ (∀ c ∈ s.2, wsChar c = true) ∧
    s.1 = i.dropWhile wsChar := by
  simp only [space1] at h
  split at h
  · exact absurd h (by simp)
  · cases h
    refine ⟨(List.takeWhile_append_dropWhile _ _).symm, by assumption, ?_, rfl⟩
    intro c hc
    exact List.mem_takeWhile_imp hc

theorem space1_head {i : Input} {s : Input × List Char} (h : space1 i = some s) :
    ∃ c t, i = c :: t ∧ wsChar c = true := by
  obtain ⟨hi, hne, hmem, _⟩ := space1_inv h
  cases hs : s.2 with
  | nil => exact absurd hs hne
  | cons c t =>
    refine ⟨c, t ++ s.1, ?_, ?_⟩
    · rw [hi, hs]; simp
    · exact hmem c (by rw [hs]; simp)

theorem space0_eq (i : Input) :
    space0 i = some (i.dropWhile wsChar, i.takeWhile wsChar) := rfl

theorem charP_inv {c : Char} {i : Input} {s : Input × Char}
    (h : charP c i = some s) : i = c :: s.1 ∧ s.2 = c := by
  cases i with
  | nil => exact absurd h (by simp [charP])
  | cons x xs =>
    simp only [charP] at h
    split at h
    · cases h
      subst x
      exact ⟨rfl, rfl⟩
    · exact absurd h (by simp)

theorem mapSub_inv {α : Type} {first : P (List Char)} {second : P α}
    {i : Input} {s : Input × α} (h : mapSub first second i = some s) :
    ∃ a b, first i = some a ∧ second a.2 = some b ∧ s = (a.1, b.2) := by
  simp only [mapSub, Option.bind_eq_some] at h
  obtain ⟨a, ha, b, hb, hs⟩ := h
  cases hs
  exact ⟨a, b, ha, hb, rfl⟩

theorem all_consuming_inv {α : Type} {p : P α} {i : Input} {s : Input × α}
    (h : all_consuming p i = some s) : p i = some s ∧ s.1 = [] := by
  simp only [all_consuming, Option.bind_eq_some] at h
  obtain ⟨a, ha, hif⟩ := h
  split at hif
  · cases hif
    exact ⟨ha, by assumption⟩
  · exact absurd hif (by simp)

theorem transform_escaped_some {t : List Char} {b : Input × List Char}
    (h : transform_escaped t = some b) :
    spec_escape_decode t = some b.2 ∧ b.1 = [] := by
  rw [transform_escaped_eq_spec] at h
  cases hX : spec_escape_decode t with
  | none => rw [hX] at h; simp at h
  | some o =>
    rw [hX] at h
    simp at h
    subst h
    exact ⟨rfl, rfl⟩

theorem spec_ne_nil {t o : List Char}
    (h : spec_escape_decode t = some o) (ht : t ≠ []) : o ≠ [] := by
  cases t with
  | nil => exact absurd rfl ht
  | cons c rest =>
    by_cases hc : c = '\\'
    · subst hc
      rw [spec_escape_decode, if_pos rfl] at h
      split at h
      · obtain ⟨a, _, ho⟩ := Option.map_eq_some'.mp h
        rw [← ho]; simp
      · split at h
        · obtain ⟨a, _, ho⟩ := Option.map_eq_some'.mp h
          rw [← ho]; simp
        · exact absurd h (by simp)
    · rw [spec_nonctrl c rest hc] at h
      obtain ⟨a, _, ho⟩ := Option.map_eq_some'.mp h
      rw [← ho]; simp

theorem parse_line_inv {i rem : Input} {m : Mount}
    (h : parse_line i = some (rem, m)) :
    ∃ s1 s2 s3 s4 s5 s6 s7 s8 s9 s10 s11 s12,
      mapSub not_whitespace transform_escaped i = some s1 ∧
      space1 s1.1 = some s2 ∧
      mapSub not_whitespace transform_escaped s2.1 = some s3 ∧
      space1 s3.1 = some s4 ∧
      not_whitespace s4.1 = some s5 ∧
      space1 s5.1 = some s6 ∧
      mount_opts s6.1 = some s7 ∧
      space1 s7.1 = some s8 ∧
      charP '0' s8.1 = some s9 ∧
      space1 s9.1 = some s10 ∧
      charP '0' s10.1 = some s11 ∧
      space0 s11.1 = some s12 ∧
      s12.1 = [] ∧ rem = [] ∧ m = Mount.mk s1.2 s3.2 s5.2 s7.2 := by
  rw [parse_line] at h
  obtain ⟨hb, hrem⟩ := all_consuming_inv h
  simp only [Option.bind_eq_some] at hb
  obtain ⟨s1, h1, s2, h2, s3, h3, s4, h4, s5, h5, s6, h6, s7, h7,
          s8, h8, s9, h9, s10, h10, s11, h11, s12, h12, hfin⟩ := hb
  have hfin' := Option.some.inj hfin
  have h121 : s12.1 = rem := congrArg Prod.fst hfin'
  have hm : Mount.mk s1.2 s3.2 s5.2 s7.2 = m := congrArg Prod.snd hfin'
  exact ⟨s1, s2, s3, s4, s5, s6, s7, s8, s9, s10, s11, s12,
    h1, h2, h3, h4, h5, h6, h7, h8, h9, h10, h11, h12,
    by rw [h121]; exact hrem, hrem, hm.symm⟩

theorem sepListLoop_grows {α β : Type} (sep : P α) (f : P β) :
    ∀ (fuel : Nat) (i : Input) (res : List β) (r : Input) (out : List β),
      sepListLoop sep f fuel i res = some (r, out) → ∃ tail, out = res ++ tail := by
  intro fuel
  induction fuel with
  | zero => intro i res r out h; simp [sepListLoop] at h
  | succ fl ih =>
    intro i res r out h
    simp only [sepListLoop] at h
    cases hsep : sep i with
    | none =>
      rw [hsep] at h
      simp at h
      exact ⟨[], by rw [← h.2]; simp⟩
    | some s =>
      rw [hsep] at h
      simp only at h
      split at h
      · simp at h
      · cases hf : f s.1 with
        | none =>
          rw [hf] at h
          simp at h
          exact ⟨[], by rw [← h.2]; simp⟩
        | some s2 =>
          rw [hf] at h
          simp only at h
          split at h
          · simp at h
          · obtain ⟨tail, htail⟩ := ih s2.1 (res ++ [s2.2]) r out h
            exact ⟨s2.2 :: tail, by rw [htail]; simp⟩

theorem sepListLoop_forall {α β : Type} (sep : P α) (f : P β) (Q : β → Prop)
    (hf : ∀ j s, f j = some s → Q s.2) :
    ∀ (fuel : Nat) (i : Input) (res : List β) (r : Input) (out : List β),
      (∀ o ∈ res, Q o) → sepListLoop sep f fuel i res = some (r, out) →
        ∀ o ∈ out, Q o := by
  intro fuel
  induction fuel with
  | zero => intro i res r out _ h; simp [sepListLoop] at h
  | succ fl ih =>
    intro i res r out hres h
    simp only [sepListLoop] at h
    cases hsep : sep i with
    | none =>
      rw [hsep] at h
      simp at h
      rw [← h.2]
      exact hres
    | some s =>
      rw [hsep] at h
      simp only at h
      split at h
      · simp at h
      · cases hfe : f s.1 with
        | none =>
          rw [hfe] at h
          simp at h
          rw [← h.2]
          exact hres
        | some s2 =>
          rw [hfe] at h
          simp only at h
          split at h
          · simp at h
          · refine ih s2.1 (res ++ [s2.2]) r out ?_ h
            intro o ho
            rcases List.mem_append.mp ho with hl | hr
            · exact hres o hl
            · rw [List.mem_singleton.mp hr]
              exact hf s.1 s2 hfe

theorem mount_opts_elem_ne_nil {j : Input} {s : Input × List Char}
    (h : mapSub (isNot [',', ' ', '\t']) transform_escaped j = some s) :
    s.2 ≠ [] := by
  obtain ⟨a, b, ha, hb, hs⟩ := mapSub_inv h
  obtain ⟨_, _, hane⟩ := isNot_inv ha
  obtain ⟨hspec, _⟩ := transform_escaped_some hb
  rw [hs]
  exact spec_ne_nil hspec hane

theorem mount_opts_nil {j r : Input} (h : mount_opts j = some (r, [])) : r = j := by
  simp only [mount_opts, separated_list] at h
  cases hf : mapSub (isNot [',', ' ', '\t']) transform_escaped j with
  | none =>
    rw [hf] at h
    simp at h
    exact h.symm
  | some s =>
    rw [hf] at h
    simp only at h
    split at h
    · simp at h
    · obtain ⟨tail, htail⟩ := sepListLoop_grows _ _ _ _ _ _ _ h
      simp at htail

theorem mount_opts_forall {j : Input} {s : Input × List (List Char)}
    (h : mount_opts j = some s) : ∀ o ∈ s.2, o ≠ [] := by
  simp only [mount_opts, separated_list] at h
  cases hf : mapSub (isNot [',', ' ', '\t']) transform_escaped j with
  | none =>
    rw [hf] at h
    simp at h
    subst h
    simp
  | some s0 =>
    rw [hf] at h
    simp only at h
    split at h
    · simp at h
    · refine sepListLoop_forall (charP ',')
        (mapSub (isNot [',', ' ', '\t']) transform_escaped) (fun o => o ≠ [])
        (fun j' s' h' => mount_opts_elem_ne_nil h')
        (j.length + 1) s0.1 [s0.2] s.1 s.2 ?_ ?_
      · intro o ho
        rw [List.mem_singleton.mp ho]
        exact mount_opts_elem_ne_nil hf
      · exact h

/-- Claim C1: for every input token string, the escape decoder
`transform_escaped` copies every run of non-backslash characters
verbatim, replaces each backslash immediately followed by `\` with a
single backslash and each backslash immediately followed by `040` with
a single space, and fails exactly when some backslash is followed by
anything else, including a trailing lone backslash — stated as
agreement, on every input, with the specification decoder
`spec_escape_decode` (which consumes the whole input on success). -/
theorem claimC1 (i : Input) :
    transform_escaped i
      = (spec_escape_decode i).map (fun s => (([] : Input), s)) :=
  transform_escaped_eq_spec i

/-- Claim C4: the escape decoder applied to the empty string succeeds
and yields the empty string with no remaining input. -/
theorem claimC4 : transform_escaped [] = some ([], []) := rfl

/-- Claim C3: there is no input line that `parse_line` accepts while
producing a record with an empty options list. -/
theorem claimC3 (i rem : Input) (m : Mount) (h : parse_line i = some (rem, m)) :
    m.options ≠ [] := by
  obtain ⟨s1, s2, s3, s4, s5, s6, s7, s8, s9, s10, s11, s12,
    h1, h2, h3, h4, h5, h6, h7, h8, h9, h10, h11, h12, hend, hrem, hm⟩ :=
    parse_line_inv h
  intro hopt
  have hs72 : s7.2 = [] := by rw [hm] at hopt; exact hopt
  have h7' : mount_opts s6.1 = some (s7.1, []) := by rw [← hs72]; exact h7
  have h71 : s7.1 = s6.1 := mount_opts_nil h7'
  obtain ⟨c, t, hct, hws⟩ := space1_head h8
  obtain ⟨_, _, _, hdw⟩ := space1_inv h6
  have hcf : wsChar c = false := by
    apply dropWhile_head_not s5.1 c t
    rw [← hdw, ← h71]
    exact hct
  rw [hws] at hcf
  simp at hcf

/-- Witness for claim C3: the concrete line `dev mp fs rw,ro 0 0`
parses, and its options list is nonempty. -/
theorem claimC3_witness :
    parse_line lineA = some ([], mountA) ∧ mountA.options ≠ [] :=
  ⟨by decide, claimC3 lineA [] mountA (by decide)⟩

/-- Claim C10: every record produced by a successful `parse_line` has a
nonempty device, mount point and filesystem type, and every option
string is nonempty. -/
theorem claimC10 (i rem : Input) (m : Mount) (h : parse_line i = some (rem, m)) :
    m.device ≠ [] ∧ m.mount_point ≠ [] ∧ m.file_system_type ≠ [] ∧
      ∀ o ∈ m.options, o ≠ [] := by
  obtain ⟨s1, s2, s3, s4, s5, s6, s7, s8, s9, s10, s11, s12,
    h1, h2, h3, h4, h5, h6, h7, h8, h9, h10, h11, h12, hend, hrem, hm⟩ :=
    parse_line_inv h
  subst hm
  refine ⟨?_, ?_, ?_, ?_⟩
  · obtain ⟨a, b, ha, hb, hs⟩ := mapSub_inv h1
    obtain ⟨_, hane, _, _⟩ := not_whitespace_inv ha
    obtain ⟨hspec, _⟩ := transform_escaped_some hb
    have hb2 := spec_ne_nil hspec hane
    show s1.2 ≠ []
    rw [hs]
    exact hb2
  · obtain ⟨a, b, ha, hb, hs⟩ := mapSub_inv h3
    obtain ⟨_, hane, _, _⟩ := not_whitespace_inv ha
    obtain ⟨hspec, _⟩ := transform_escaped_some hb
    have hb2 := spec_ne_nil hspec hane
    show s3.2 ≠ []
    rw [hs]
    exact hb2
  · obtain ⟨_, hne, _, _⟩ := not_whitespace_inv h5
    exact hne
  · show ∀ o ∈ s7.2, o ≠ []
    exact mount_opts_forall h7

/-- Witness for claim C10 at the concrete line `dev mp fs rw,ro 0 0`. -/
theorem claimC10_witness :
    parse_line lineA = some ([], mountA) ∧
      (mountA.device ≠ [] ∧ mountA.mount_point ≠ [] ∧
       mountA.file_system_type ≠ [] ∧ ∀ o ∈ mountA.options, o ≠ []) :=
  ⟨by decide, claimC10 lineA [] mountA (by decide)⟩

/-- Claim C9: `parse_line` and `parse_line_alternate` return equal
results on every input string: either both fail, or both succeed with
the same remaining input and the same record. -/
theorem claimC9 (i : Input) : parse_line i = parse_line_alternate i := by
  simp only [parse_line, parse_line_alternate, all_consuming]
  cases h1 : mapSub not_whitespace transform_escaped i with
  | none => simp [h1]
  | some s1 =>
    simp only [h1, Option.some_bind]
    cases h2 : space1 s1.1 with
    | none => simp [h2]
    | some s2 =>
      simp only [h2, Option.some_bind]
      cases h3 : mapSub not_whitespace transform_escaped s2.1 with
      | none => simp [h3]
      | some s3 =>
        simp only [h3, Option.some_bind]
        cases h4 : space1 s3.1 with
        | none => simp [h4]
        | some s4 =>
          simp only [h4, Option.some_bind]
          cases h5 : not_whitespace s4.1 with
          | none => simp [h5]
          | some s5 =>
            simp only [h5, Option.some_bind]
            cases h6 : space1 s5.1 with
            | none => simp [h6]
            | some s6 =>
              simp only [h6, Option.some_bind]
              cases h7 : mount_opts s6.1 with
              | none => simp [h7]
              | some s7 =>
                simp only [h7, Option.some_bind]
                cases h8 : space1 s7.1 with
                | none => simp [h8]
                | some s8 =>
                  simp only [h8, Option.some_bind]
                  cases h9 : charP '0' s8.1 with
                  | none => simp [h9]
                  | some s9 =>
                    simp only [h9, Option.some_bind]
                    cases h10 : space1 s9.1 with
                    | none => simp [h10]
                    | some s10 =>
                      simp only [h10, Option.some_bind]
                      cases h11 : charP '0' s10.1 with
                      | none => simp [h11]
                      | some s11 =>
                        simp only [h11, Option.some_bind]
                        cases h12 : space0 s11.1 with
                        | none => simp [h12]
                        | some s12 =>
                          simp only [h12, Option.some_bind]
                          by_cases hend : s12.1 = [] <;> simp [hend]

/-- Claim C2: `parse_line` succeeds only if after the options field
there follow, separated by one-or-more whitespace characters, exactly
two literal `0` characters and then optional trailing whitespace
reaching the end of the input: on any success the remaining input is
empty and the input left after the options field decomposes as
whitespace, `0`, whitespace, `0`, optional whitespace — so a line
missing either `0`, with a non-`0` value in those positions, or with
leftover characters, cannot parse. -/
theorem claimC2 (i rem : Input) (m : Mount) (h : parse_line i = some (rem, m)) :
    rem = [] ∧ ∃ i7 w1 w2 w3,
      parse_through_options i = some i7 ∧
      i7 = w1 ++ '0' :: (w2 ++ '0' :: w3) ∧
      w1 ≠ [] ∧ (∀ c ∈ w1, wsChar c = true) ∧
      w2 ≠ [] ∧ (∀ c ∈ w2, wsChar c = true) ∧
      (∀ c ∈ w3, wsChar c = true) := by
  obtain ⟨s1, s2, s3, s4, s5, s6, s7, s8, s9, s10, s11, s12,
    h1, h2, h3, h4, h5, h6, h7, h8, h9, h10, h11, h12, hend, hrem, hm⟩ :=
    parse_line_inv h
  obtain ⟨he8, hne8, hmem8, _⟩ := space1_inv h8
  obtain ⟨he9, _⟩ := charP_inv h9
  obtain ⟨he10, hne10, hmem10, _⟩ := space1_inv h10
  obtain ⟨he11, _⟩ := charP_inv h11
  have h12' : s12 = (s11.1.dropWhile wsChar, s11.1.takeWhile wsChar) :=
    Option.some.inj (h12.symm.trans (space0_eq s11.1))
  have hdw : s11.1.dropWhile wsChar = [] := by
    rw [h12'] at hend
    exact hend
  have hw3 : s11.1 = s12.2 := by
    rw [h12']
    conv_lhs => rw [← List.takeWhile_append_dropWhile (p := wsChar) (l := s11.1)]
    rw [hdw, List.append_nil]
  refine ⟨hrem, s7.1, s8.2, s10.2, s12.2, ?_, ?_, hne8, hmem8, hne10, hmem10, ?_⟩
  · simp only [parse_through_options, h1, h2, h3, h4, h5, h6, h7, Option.some_bind]
  · rw [he8, he9, he10, he11, hw3]
  · intro c hc
    rw [h12'] at hc
    exact List.mem_takeWhile_imp hc

/-- Witness for claim C2 at the concrete line `dev mp fs rw,ro 0 0`. -/
theorem claimC2_witness :
    parse_line lineA = some ([], mountA) ∧
      (([] : Input) = [] ∧ ∃ i7 w1 w2 w3,
        parse_through_options lineA = some i7 ∧
        i7 = w1 ++ '0' :: (w2 ++ '0' :: w3) ∧
        w1 ≠ [] ∧ (∀ c ∈ w1, wsChar c = true) ∧
        w2 ≠ [] ∧ (∀ c ∈ w2, wsChar c = true) ∧
        (∀ c ∈ w3, wsChar c = true)) :=
  ⟨by decide, claimC2 lineA [] mountA (by decide)⟩

/-- Claim C5: for every successfully parsed line, the record's
`file_system_type` equals the third whitespace-delimited token exactly
as it appears in the input, with no escape decoding: the input splits
as token, whitespace, token, whitespace, then `m.file_system_type`
itself (a maximal nonempty whitespace-free run, followed by
whitespace). -/
theorem claimC5 (i rem : Input) (m : Mount) (h : parse_line i = some (rem, m)) :
    ∃ t1 w1 t2 w2 rest2,
      i = t1 ++ w1 ++ t2 ++ w2 ++ m.file_system_type ++ rest2 ∧
      t1 ≠ [] ∧ (∀ c ∈ t1, wsChar c = false) ∧
      w1 ≠ [] ∧ (∀ c ∈ w1, wsChar c = true) ∧
      t2 ≠ [] ∧ (∀ c ∈ t2, wsChar c = false) ∧
      w2 ≠ [] ∧ (∀ c ∈ w2, wsChar c = true) ∧
      m.file_system_type ≠ [] ∧ (∀ c ∈ m.file_system_type, wsChar c = false) ∧
      (∃ c r2, rest2 = c :: r2 ∧ wsChar c = true) := by
  obtain ⟨s1, s2, s3, s4, s5, s6, s7, s8, s9, s10, s11, s12,
    h1, h2, h3, h4, h5, h6, h7, h8, h9, h10, h11, h12, hend, hrem, hm⟩ :=
    parse_line_inv h
  obtain ⟨a1, b1, ha1, hb1, hs1⟩ := mapSub_inv h1
  obtain ⟨hi, hane1, hmem1, _⟩ := not_whitespace_inv ha1
  obtain ⟨he2, hne2, hmem2, _⟩ := space1_inv h2
  obtain ⟨a2, b2, ha2, hb2, hs2⟩ := mapSub_inv h3
  obtain ⟨hi2, hane2, hmem2n, _⟩ := not_whitespace_inv ha2
  obtain ⟨he4, hne4, hmem4, _⟩ := space1_inv h4
  obtain ⟨hi5, hane5, hmem5, _⟩ := not_whitespace_inv h5
  obtain ⟨c, t, hct, hcw⟩ := space1_head h6
  have hfs : m.file_system_type = s5.2 := by rw [hm]
  refine ⟨a1.2, s2.2, a2.2, s4.2, s5.1, ?_, hane1, hmem1, hne2, hmem2,
    hane2, hmem2n, hne4, hmem4, ?_, ?_, ⟨c, t, hct, hcw⟩⟩
  · rw [hfs, hi]
    have ha11 : a1.1 = s1.1 := by rw [hs1]
    rw [ha11, he2, hi2]
    have ha21 : a2.1 = s3.1 := by rw [hs2]
    rw [ha21, he4, hi5]
    simp [List.append_assoc]
  · rw [hfs]
    exact hane5
  · rw [hfs]
    exact hmem5

/-- Witness for claim C5 at the concrete line `dev mp fs rw,ro 0 0`. -/
theorem claimC5_witness :
    parse_line lineA = some ([], mountA) ∧
      (∃ t1 w1 t2 w2 rest2,
        lineA = t1 ++ w1 ++ t2 ++ w2 ++ mountA.file_system_type ++ rest2 ∧
        t1 ≠ [] ∧ (∀ c ∈ t1, wsChar c = false) ∧
        w1 ≠ [] ∧ (∀ c ∈ w1, wsChar c = true) ∧
        t2 ≠ [] ∧ (∀ c ∈ t2, wsChar c = false) ∧
        w2 ≠ [] ∧ (∀ c ∈ w2, wsChar c = true) ∧
        mountA.file_system_type ≠ [] ∧
        (∀ c ∈ mountA.file_system_type, wsChar c = false) ∧
        (∃ c r2, rest2 = c :: r2 ∧ wsChar c = true)) :=
  ⟨by decide, claimC5 lineA [] mountA (by decide)⟩

theorem seq_forall2 {ε : Type} (ls : List (LineRead ε)) :
    List.Forall₂ stepRel ls (mountsIntoIterSeq ls) := by
  induction ls with
  | nil => exact List.Forall₂.nil
  | cons a rest ih =>
    cases a with
    | ok l =>
      simp only [mountsIntoIterSeq]
      refine List.Forall₂.cons ⟨?_, ?_⟩ ih
      · intro r pm hpm
        rw [hpm]
      · intro hn
        rw [hn]
    | err e =>
      simp only [mountsIntoIterSeq]
      exact List.Forall₂.cons rfl ih

/-- Claim C7: the owning iterator (`MountsIntoIterator`) and the
borrowing iterator (`MountsIteratorMut`) produce identical sequences
element-for-element over any sequence of line reads: their step
functions agree on every state, the produced sequences are equal, and
each element is the parsed record, a parse-kind error, or a read-kind
error exactly as the corresponding line read dictates, ending exactly
with the line source. -/
theorem claimC7 {ε : Type} (ls : List (LineRead ε)) :
    (∀ st : List (LineRead ε), mountsIntoIteratorNext st = mountsIteratorMutNext st) ∧
    mountsIntoIterSeq ls = mountsIterMutSeq ls ∧
    List.Forall₂ stepRel ls (mountsIntoIterSeq ls) := by
  refine ⟨fun st => rfl, ?_, seq_forall2 ls⟩
  induction ls with
  | nil => rfl
  | cons a rest ih => cases a <;> simp [mountsIntoIterSeq, mountsIterMutSeq, ih]

/-- Claim C8: the line parser and each iteration step are total in the
embedding: `parse_line` on any input either fails or returns a complete
record with no input left over, and the iteration over any line
sequence emits exactly one item per line — the parsed record on
success, the opaque parse error when the grammar fails, the propagated
read error on a read failure — never skipping or aborting. -/
theorem claimC8 (ε : Type) (ls : List (LineRead ε)) :
    (∀ i : Input, parse_line i = none ∨ ∃ m : Mount, parse_line i = some ([], m)) ∧
    (mountsIntoIterSeq ls).length = ls.length ∧
    List.Forall₂ stepRel ls (mountsIntoIterSeq ls) := by
  refine ⟨?_, ((seq_forall2 ls).length_eq).symm, seq_forall2 ls⟩
  intro i
  cases hp : parse_line i with
  | none => exact Or.inl rfl
  | some s =>
    right
    have hrem : s.1 = [] := by
      have hp' := hp
      rw [parse_line] at hp'
      exact (all_consuming_inv hp').2
    have hs : s = ([], s.2) := by
      rw [← hrem]
    exact ⟨s.2, by rw [hs]⟩

theorem takeWhile_app_stop {p : Char → Bool} :
    ∀ (xs : List Char), (∀ c ∈ xs, p c = true) → ∀ (y : Char), p y = false →
      ∀ (ys : List Char), (xs ++ y :: ys).takeWhile p = xs := by
  intro xs
  induction xs with
  | nil =>
    intro _ y hy ys
    simp [List.takeWhile_cons, hy]
  | cons a t ih =>
    intro hxs y hy ys
    have ha : p a = true := hxs a (by simp)
    rw [List.cons_append, List.takeWhile_cons_of_pos ha,
        ih (fun c hc => hxs c (by simp [hc])) y hy ys]

theorem dropWhile_app_stop {p : Char → Bool} :
    ∀ (xs : List Char), (∀ c ∈ xs, p c = true) → ∀ (y : Char), p y = false →
      ∀ (ys : List Char), (xs ++ y :: ys).dropWhile p = y :: ys := by
  intro xs
  induction xs with
  | nil =>
    intro _ y hy ys
    simp [List.dropWhile_cons, hy]
  | cons a t ih =>
    intro hxs y hy ys
    have ha : p a = true := hxs a (by simp)
    rw [List.cons_append, List.dropWhile_cons_of_pos ha,
        ih (fun c hc => hxs c (by simp [hc])) y hy ys]

theorem splitAtSub_single {c : Char} :
    ∀ (a : List Char), c ∉ a → ∀ (b : List Char),
      splitAtSub [c] (a ++ c :: b) = some (a, b) := by
  intro a
  induction a with
  | nil =>
    intro _ b
    simp [splitAtSub, List.isPrefixOf_cons₂]
  | cons x a' ih =>
    intro ha b
    have hxc : ¬ c = x := by
      intro he
      exact ha (by rw [he]; simp)
    rw [List.cons_append, splitAtSub]
    rw [if_neg (by simp [List.isPrefixOf_cons₂, hxc])]
    rw [ih (fun hmem => ha (by simp [hmem])) b]

theorem suffix_cons_of {t l : List Char} (x : Char) (h : t <:+ l) : t <:+ x :: l := by
  obtain ⟨p, hp⟩ := h
  exact ⟨x :: p, by rw [← hp]; rfl⟩

theorem splitAtSub_on :
    ∀ (d : List Char), ¬ [' ', 'o', 'n', ' '] <:+: d → ¬ [' ', 'o', 'n'] <:+ d →
      ∀ (mp : List Char),
        splitAtSub [' ', 'o', 'n', ' '] (d ++ [' ', 'o', 'n', ' '] ++ mp)
          = some (d, mp) := by
  intro d
  induction d with
  | nil =>
    intro _ _ mp
    simp [splitAtSub, List.isPrefixOf_cons₂]
  | cons x d' ih =>
    intro h1 h2 mp
    by_cases hpre : List.isPrefixOf [' ', 'o', 'n', ' '] (x :: d' ++ [' ', 'o', 'n', ' '] ++ mp)
    · exfalso
      cases d' with
      | nil => simp [List.isPrefixOf_cons₂] at hpre
      | cons y1 d2 =>
        cases d2 with
        | nil => simp [List.isPrefixOf_cons₂] at hpre
        | cons y2 d3 =>
          cases d3 with
          | nil =>
            simp [List.isPrefixOf_cons₂] at hpre
            obtain ⟨he1, he2, he3⟩ := hpre
            apply h2
            rw [← he1, ← he2, ← he3]
          | cons y3 d4 =>
            simp only [List.cons_append, List.isPrefixOf_cons₂,
              List.isPrefixOf_nil_left, Bool.and_true, Bool.and_eq_true,
              beq_iff_eq] at hpre
            obtain ⟨he1, he2, he3, he4⟩ := hpre
            apply h1
            refine List.IsPrefix.isInfix ⟨d4, ?_⟩
            rw [← he1, ← he2, ← he3, ← he4]
            rfl
    · rw [List.cons_append, List.cons_append, splitAtSub]
      rw [if_neg (by
        intro hco
        exact hpre (by
          rw [List.cons_append, List.cons_append]
          exact hco))]
      rw [ih (fun hin => h1 (List.infix_cons hin))
            (fun hsuf => h2 (suffix_cons_of x hsuf)) mp]

theorem splitOnChar_ne_nil (sep : Char) : ∀ (l : List Char), splitOnChar sep l ≠ [] := by
  intro l
  induction l with
  | nil => simp [splitOnChar]
  | cons c r ih =>
    rw [splitOnChar]
    cases hr : splitOnChar sep r with
    | nil => simp
    | cons x xs =>
      by_cases hc : c = sep <;> simp [hc]

theorem splitOnChar_single {o : List Char} (h : ',' ∉ o) : splitOnChar ',' o = [o] := by
  induction o with
  | nil => rfl
  | cons c r ih =>
    have hc : ¬ c = ',' := by
      intro he
      exact h (by rw [he]; simp)
    rw [splitOnChar, ih (fun hmem => h (by simp [hmem]))]
    simp [hc]

theorem splitOnChar_app {o : List Char} (ho : ',' ∉ o) (t : List Char) :
    splitOnChar ',' (o ++ ',' :: t) = o :: splitOnChar ',' t := by
  induction o with
  | nil =>
    rw [List.nil_append, splitOnChar]
    cases ht : splitOnChar ',' t with
    | nil => exact absurd ht (splitOnChar_ne_nil ',' t)
    | cons x xs => simp
  | cons c r ih =>
    have hc : ¬ c = ',' := by
      intro he
      exact ho (by rw [he]; simp)
    rw [List.cons_append, splitOnChar, ih (fun hmem => ho (by simp [hmem]))]
    simp [hc]

theorem intercalate_single (o : List Char) : List.intercalate [','] [o] = o := by
  simp [List.intercalate]

theorem intercalate_cons (o p : List Char) (rest : List (List Char)) :
    List.intercalate [','] (o :: p :: rest)
      = o ++ ',' :: List.intercalate [','] (p :: rest) := by
  simp [List.intercalate, List.intersperse]

theorem splitOnChar_join :
    ∀ (opts : List (List Char)), opts ≠ [] → (∀ o ∈ opts, ',' ∉ o) →
      splitOnChar ',' (List.intercalate [','] opts) = opts := by
  intro opts
  induction opts with
  | nil => intro h; exact absurd rfl h
  | cons o rest ih =>
    intro _ hno
    cases rest with
    | nil =>
      rw [intercalate_single]
      rw [splitOnChar_single (hno o (by simp))]
    | cons p r2 =>
      rw [intercalate_cons]
      rw [splitOnChar_app (hno o (by simp))]
      rw [ih (by simp) (fun o' ho' => hno o' (by simp [ho']))]

/-- Counterexample to claim C6 as stated: two records that `parse_line`
itself produces (hence valid), with no `(`, `)` or `,` in any field,
render to the same Display string while differing in device and mount
point — so re-deriving the fields from the rendering cannot recover
both records, and in particular the format's re-derivation fails on the
first of them. -/
theorem claimC6_counterexample :
    parse_line lineB1 = some ([], mountB1) ∧
    parse_line lineB2 = some ([], mountB2) ∧
    noForbidden mountB1 ∧ noForbidden mountB2 ∧
    mountDisplay mountB1 = mountDisplay mountB2 ∧
    mountB1 ≠ mountB2 ∧
    specRederive (mountDisplay mountB1) ≠ some mountB1 ∧
    ∀ f : List Char → Option Mount,
      ¬ (f (mountDisplay mountB1) = some mountB1 ∧
         f (mountDisplay mountB2) = some mountB2) := by
  refine ⟨by decide, by decide, by decide, by decide, by decide, by decide,
    by decide, ?_⟩
  rintro f ⟨hf1, hf2⟩
  rw [show mountDisplay mountB1 = mountDisplay mountB2 from by decide] at hf1
  rw [hf1] at hf2
  exact (by decide : mountB1 ≠ mountB2) (Option.some.inj hf2)

/-- Amended claim C6: for every valid record whose fields contain none
of `(`, `)`, `,` and whose device neither contains the substring
`" on "` nor ends with `" on"`, re-deriving the four field values from
the Display rendering recovers the record exactly. -/
theorem claimC6_amended (m : Mount) (hv : validMount m) (hnb : noForbidden m)
    (hd1 : ¬ [' ', 'o', 'n', ' '] <:+: m.device)
    (hd2 : ¬ [' ', 'o', 'n'] <:+ m.device) :
    specRederive (mountDisplay m) = some m := by
  obtain ⟨-, -, -, hfws, hone, hoprop⟩ := hv
  obtain ⟨hnb1, hnb2, hnb3, -⟩ := hnb
  have hpred : ∀ c ∈ m.file_system_type.reverse, (!(c == ' ')) = true := by
    intro c hc
    have hw := hfws c (List.mem_reverse.mp hc)
    simp [wsChar] at hw
    simp [hw.1]
  have hX : mountDisplay m =
      (((m.device ++ [' ', 'o', 'n', ' '] ++ m.mount_point ++
          [' ', 't', 'y', 'p', 'e', ' '] ++ m.file_system_type) ++ [' ']) ++
        '(' :: List.intercalate [','] m.options) ++ [')'] := by
    simp [mountDisplay, List.append_assoc]
  have hpA : '(' ∉ ((m.device ++ [' ', 'o', 'n', ' '] ++ m.mount_point ++
      [' ', 't', 'y', 'p', 'e', ' '] ++ m.file_system_type) ++ [' ']) := by
    intro hmem
    simp [List.mem_append] at hmem
    rcases hmem with h | h | h
    · exact (hnb1 _ h).1 rfl
    · exact (hnb2 _ h).1 rfl
    · exact (hnb3 _ h).1 rfl
  have hsplit1 : splitAtSub ['(']
      (((m.device ++ [' ', 'o', 'n', ' '] ++ m.mount_point ++
          [' ', 't', 'y', 'p', 'e', ' '] ++ m.file_system_type) ++ [' ']) ++
        '(' :: List.intercalate [','] m.options)
      = some ((m.device ++ [' ', 'o', 'n', ' '] ++ m.mount_point ++
          [' ', 't', 'y', 'p', 'e', ' '] ++ m.file_system_type) ++ [' '],
          List.intercalate [','] m.options) :=
    splitAtSub_single _ hpA _
  have hrev : (m.device ++ [' ', 'o', 'n', ' '] ++ m.mount_point ++
      [' ', 't', 'y', 'p', 'e', ' '] ++ m.file_system_type).reverse
      = m.file_system_type.reverse ++ ' ' ::
        (m.device ++ [' ', 'o', 'n', ' '] ++ m.mount_point ++
          [' ', 't', 'y', 'p', 'e']).reverse := by
    simp [List.reverse_append, List.append_assoc]
  have hrest : restOf (m.device ++ [' ', 'o', 'n', ' '] ++ m.mount_point ++
      [' ', 't', 'y', 'p', 'e', ' '] ++ m.file_system_type)
      = m.device ++ [' ', 'o', 'n', ' '] ++ m.mount_point ++ [' ', 't', 'y', 'p', 'e'] := by
    rw [restOf, hrev]
    rw [dropWhile_app_stop m.file_system_type.reverse hpred ' ' (by decide)]
    simp
  have hfsrev : ((m.device ++ [' ', 'o', 'n', ' '] ++ m.mount_point ++
      [' ', 't', 'y', 'p', 'e', ' '] ++ m.file_system_type).reverse.takeWhile
        (fun c => !(c == ' '))).reverse = m.file_system_type := by
    rw [hrev]
    rw [takeWhile_app_stop m.file_system_type.reverse hpred ' ' (by decide)]
    simp
  have htyp : [' ', 't', 'y', 'p', 'e'] <:+
      (m.device ++ [' ', 'o', 'n', ' '] ++ m.mount_point ++ [' ', 't', 'y', 'p', 'e']) :=
    ⟨m.device ++ [' ', 'o', 'n', ' '] ++ m.mount_point, rfl⟩
  have htake : (m.device ++ [' ', 'o', 'n', ' '] ++ m.mount_point ++
        [' ', 't', 'y', 'p', 'e']).take
      ((m.device ++ [' ', 'o', 'n', ' '] ++ m.mount_point ++
        [' ', 't', 'y', 'p', 'e']).length - 5)
      = m.device ++ [' ', 'o', 'n', ' '] ++ m.mount_point := by
    have h5 : (m.device ++ [' ', 'o', 'n', ' '] ++ m.mount_point ++
        [' ', 't', 'y', 'p', 'e']).length - 5
        = (m.device ++ [' ', 'o', 'n', ' '] ++ m.mount_point).length := by
      simp
      omega
    rw [h5]
    exact List.take_left _ _
  have hsplit2 : splitAtSub [' ', 'o', 'n', ' ']
      (m.device ++ [' ', 'o', 'n', ' '] ++ m.mount_point)
      = some (m.device, m.mount_point) :=
    splitAtSub_on m.device hd1 hd2 m.mount_point
  have hopts : splitOnChar ',' (List.intercalate [','] m.options) = m.options :=
    splitOnChar_join m.options hone (fun o ho => (hoprop o ho).2)
  simp only [specRederive]
  rw [hX, List.getLast?_concat, List.dropLast_concat, if_pos rfl, hsplit1,
    Option.some_bind]
  dsimp only
  rw [List.getLast?_concat, if_pos rfl, List.dropLast_concat, hrest,
    if_pos htyp, htake, hsplit2, Option.some_bind]
  dsimp only
  rw [hfsrev, hopts]

/-- Witness for the amended claim C6 at the concrete record parsed from
`dev mp fs rw,ro 0 0`. -/
theorem claimC6_witness :
    (validMount mountA ∧ noForbidden mountA ∧
     ¬ [' ', 'o', 'n', ' '] <:+: mountA.device ∧
     ¬ [' ', 'o', 'n'] <:+ mountA.device) ∧
    specRederive (mountDisplay mountA) = some mountA :=
  ⟨⟨by decide, by decide, by decide, by decide⟩,
   claimC6_amended mountA (by decide) (by decide) (by decide) (by decide)⟩

end NomTutorial
